import Mathlib

/-!
Formal model of the deepfunding repository: the criticality-scoring pipeline of
`c_score.py` (metric normalization, weighted scoring, dense ranking, and the
underfunded-project detector) and the dependency-graph pipeline of
`notebooks/dependency_graph_generator.py` / `notebooks/graph_generator.py`
(identifier canonicalization, edge aggregation, count filtering, and reduction
to the largest weakly-connected component).

Numeric values are modelled by `ℚ` (exact arithmetic in place of IEEE floats);
an IEEE NaN arising from `0/0` in a zero-variance normalization is modelled by
`none : Option ℚ`.  The transcendental map `x ↦ log10(x + 1)` applied to the
heavy-tailed columns is modelled by a strictly monotone parameter
`f : ℚ → ℚ`: every property proved here depends only on its strict
monotonicity, which `log10(· + 1)` has on the non-negative reals.
-/

section DeepFundingModel

attribute [local semireducible] Rat.add Rat.sub Rat.mul Rat.inv

/-- The fixed weight table from `CriticalityScorer.__init__` in `c_score.py`. -/
def weights : List (String × ℚ) :=
  [("created_since", 1), ("updated_since", -1), ("contributor_count", 2),
   ("org_count", 1), ("commit_frequency", 1), ("recent_releases", 1/2),
   ("closed_issues_count", 1/2), ("updated_issues_count", 1/2),
   ("new_contributors", 2), ("dependents_count", 2), ("subscribers_count", 1),
   ("language_count", 1/2)]

/-- A data table, column-oriented as in pandas: a list of named numeric columns.
Identifier columns (`name`, `url`) are not numeric and play no role in scoring,
so they are not carried in the model. -/
abbrev Table := List (String × List ℚ)

/-- Column lookup; models `metric in df.columns` combined with `df[metric]`
(first — in a DataFrame, unique — column of the given name). -/
def getColumn {β : Type} : List (String × β) → String → Option β
  | [], _ => none
  | c :: t, m => if c.1 == m then some c.2 else getColumn t m

/-- Maximum of a column, as computed by `df[col].max()` (meaningful on
non-empty columns; `0` is a junk value for the empty column, on which the
source would return NaN). -/
def listMax : List ℚ → ℚ
  | [] => 0
  | x :: xs => xs.foldl max x

/-- Minimum of a column, as computed by `.min()`. -/
def listMin : List ℚ → ℚ
  | [] => 0
  | x :: xs => xs.foldl min x

/-- The columns of `c_score.py`'s `log_metrics` list (heavy-tailed counts that
get `log10(x+1)` then min-max rescaling). -/
def log_metrics : List String :=
  ["contributor_count", "org_count", "commit_frequency", "recent_releases",
   "closed_issues_count", "updated_issues_count", "new_contributors",
   "dependents_count", "subscribers_count"]

/-- The columns of `c_score.py`'s `simple_metrics` list. -/
def simple_metrics : List String := ["language_count"]

/-- Min-max rescaling `(x - min) / (max - min) * 10` of a column onto `[0,10]`.
When the column has zero variance the source divides `0` by `0`, producing an
IEEE NaN (there is no guard in `normalize_metrics`); that NaN is modelled by
`none`. -/
def minmax_rescale (xs : List ℚ) : List (Option ℚ) :=
  let lo := listMin xs
  let hi := listMax xs
  xs.map (fun x => if hi - lo = 0 then none else some ((x - lo) / (hi - lo) * 10))

/-- Normalization of a log-scaled column: `np.log10(col + 1)` followed by
min-max rescaling.  The map `x ↦ log10(x + 1)` is abstracted into the strictly
monotone parameter `f`. -/
def log_norm_col (f : ℚ → ℚ) (xs : List ℚ) : List (Option ℚ) :=
  minmax_rescale (xs.map f)

/-- Linear normalization `col / col.max() * 10`, used for `created_since` and
the simple metrics.  An all-zero column makes the source compute `0/0` (NaN),
modelled by `none`. -/
def lin_norm_col (xs : List ℚ) : List (Option ℚ) :=
  let hi := listMax xs
  xs.map (fun x => if hi = 0 then none else some (x / hi * 10))

/-- Inverted linear normalization `(1 - col / col.max()) * 10`, used for
`updated_since` (recently updated projects score higher). -/
def inv_norm_col (xs : List ℚ) : List (Option ℚ) :=
  let hi := listMax xs
  xs.map (fun x => if hi = 0 then none else some ((1 - x / hi) * 10))

/-- How `normalize_metrics` treats the column named `m`: `log10`+min-max for
the `log_metrics`, linear for `created_since`, inverted linear for
`updated_since`, linear for the `simple_metrics`, untouched otherwise. -/
def norm_transform (f : ℚ → ℚ) (m : String) (col : List ℚ) : List (Option ℚ) :=
  if m ∈ log_metrics then log_norm_col f col
  else if m == "created_since" then lin_norm_col col
  else if m == "updated_since" then inv_norm_col col
  else if m ∈ simple_metrics then lin_norm_col col
  else col.map some

/-- Embedding of `CriticalityScorer.normalize_metrics`: each present metric
column is rescaled according to its class; columns that are not metrics
(e.g. `stars`) pass through unchanged. -/
def normalize_metrics (f : ℚ → ℚ) (t : Table) : List (String × List (Option ℚ)) :=
  t.map (fun c => (c.1, norm_transform f c.1 c.2))

/-- Number of rows of a table (the length of its first column, as for a
well-formed pandas DataFrame where all columns share one length). -/
def nRows (t : Table) : ℕ :=
  match t with
  | [] => 0
  | c :: _ => c.2.length

/-- Row extraction from a normalized table: the row at index `i`, as iterated
by `normalized_df.iterrows()`. -/
def rowAt (nt : List (String × List (Option ℚ))) (i : ℕ) : List (String × Option ℚ) :=
  nt.map (fun c => (c.1, c.2.getD i none))

/-- Whether a metric is present in a row (`if metric in row`). -/
def hasCol (row : List (String × Option ℚ)) (m : String) : Bool :=
  row.any (fun p => p.1 == m)

/-- The value `row[metric]` of a metric in a row (`none` when the metric is
absent, and also when its stored value is NaN). -/
def lookupVal (row : List (String × Option ℚ)) (m : String) : Option ℚ :=
  match row.find? (fun p => p.1 == m) with
  | some p => p.2
  | none => none

/-- One iteration of the score loop in `calculate_criticality_score`:
`if metric in row: score += weight * row[metric]`.  A `none` accumulator or
value models NaN contamination of the float accumulator. -/
def score_step (row : List (String × Option ℚ)) (acc : Option ℚ) (w : String × ℚ) :
    Option ℚ :=
  if hasCol row w.1 then
    match acc, lookupVal row w.1 with
    | some a, some v => some (a + w.2 * v)
    | _, _ => none
  else acc

/-- Python's `max(0, score)`.  For a NaN argument CPython's `max` keeps the
first argument, so a NaN score is floored to `0`. -/
def pymax0 : Option ℚ → ℚ
  | none => 0
  | some x => max 0 x

/-- The criticality score of one row: the weight-table loop followed by
`max(0, score)`. -/
def score_row (row : List (String × Option ℚ)) : ℚ :=
  pymax0 (weights.foldl (score_step row) (some 0))

/-- The `criticality_score` column produced by `calculate_criticality_score`. -/
def scoresOf (f : ℚ → ℚ) (t : Table) : List ℚ :=
  (List.range (nRows t)).map (fun i => score_row (rowAt (normalize_metrics f t) i))

/-- Embedding of pandas `rank(ascending=False, method='dense')`: the dense rank
of a value is one plus the number of distinct strictly greater values in the
column. -/
def denseRank (scores : List ℚ) (s : ℚ) : ℕ :=
  (scores.toFinset.filter (fun u => s < u)).card + 1

/-- The `criticality_rank` column: each row's dense rank of its score. -/
def rankColumn (scores : List ℚ) : List ℕ :=
  scores.map (denseRank scores)

/-- The rank column of the full pipeline on a raw table. -/
def ranksOf (f : ℚ → ℚ) (t : Table) : List ℕ :=
  rankColumn (scoresOf f t)

/-- The specification's formula for the score before flooring: the sum over
metrics present in both the record and the weight table of
`weight[metric] * normalized_value[metric]`. -/
def spec_weighted_sum (row : List (String × Option ℚ)) : ℚ :=
  ((weights.filter (fun w => hasCol row w.1)).map
    (fun w => w.2 * (lookupVal row w.1).getD 0)).sum

theorem score_foldl_all_some (row : List (String × Option ℚ))
    (h : ∀ p ∈ row, p.2.isSome = true) :
    ∀ (ws : List (String × ℚ)) (a : ℚ),
      ws.foldl (score_step row) (some a) =
        some (a + ((ws.filter (fun w => hasCol row w.1)).map
          (fun w => w.2 * (lookupVal row w.1).getD 0)).sum) := by
  intro ws
  induction ws with
  | nil => intro a; simp
  | cons w ws ih =>
    intro a
    by_cases hc : hasCol row w.1
    · have hfind : (row.find? (fun p => p.1 == w.1)).isSome = true := by
        rw [List.find?_isSome]
        simpa [hasCol, List.any_eq_true] using hc
      obtain ⟨p, hp⟩ := Option.isSome_iff_exists.mp hfind
      have hpmem : p ∈ row := List.mem_of_find?_eq_some hp
      obtain ⟨v, hv⟩ := Option.isSome_iff_exists.mp (h p hpmem)
      have hlook : lookupVal row w.1 = some v := by
        simp [lookupVal, hp, hv]
      have hstep : score_step row (some a) w = some (a + w.2 * v) := by
        simp [score_step, hc, hlook]
      rw [List.foldl_cons, hstep, ih]
      rw [List.filter_cons_of_pos (by simpa using hc)]
      simp [hlook, add_assoc]
    · have hstep : score_step row (some a) w = some a := by
        simp [score_step, hc]
      rw [List.foldl_cons, hstep, ih]
      rw [List.filter_cons_of_neg (by simpa using hc)]

theorem getD_map_range {β : Type} (n : ℕ) (g : ℕ → β) (i : ℕ) (d : β) :
    (((List.range n).map g).getD i d) = if i < n then g i else d := by
  by_cases hi : i < n
  · rw [List.getD_eq_getElem?_getD, List.getElem?_map, List.getElem?_range hi]
    simp [hi]
  · rw [List.getD_eq_getElem?_getD, List.getElem?_map]
    rw [List.getElem?_eq_none (by simpa using Nat.le_of_not_lt hi)]
    simp [hi]

theorem norm_transform_length (f : ℚ → ℚ) (m : String) (col : List ℚ) :
    (norm_transform f m col).length = col.length := by
  rw [norm_transform]
  by_cases h1 : m ∈ log_metrics
  · simp [h1, log_norm_col, minmax_rescale]
  · by_cases h2 : m == "created_since"
    · simp [h1, h2, lin_norm_col]
    · by_cases h3 : m == "updated_since"
      · simp [h1, h2, h3, inv_norm_col]
      · by_cases h4 : m ∈ simple_metrics
        · simp [h1, h2, h3, h4, lin_norm_col]
        · simp [h1, h2, h3, h4]

/-- C1.  For every input table, the criticality score of each record equals the
sum over metrics present in both the record and the weight table of
`weight[metric] * normalized_value[metric]` (absent metrics contribute
nothing), floored at 0 — provided the record's normalized values are actual
numbers (no NaN) — and the score is unconditionally non-negative. -/
theorem C1_score_eq_weighted_sum_and_nonneg :
    (∀ (f : ℚ → ℚ) (t : Table) (i : ℕ), i < nRows t →
      (∀ p ∈ rowAt (normalize_metrics f t) i, p.2.isSome = true) →
      (scoresOf f t).getD i 0 =
        max 0 (spec_weighted_sum (rowAt (normalize_metrics f t) i))) ∧
    (∀ (f : ℚ → ℚ) (t : Table) (i : ℕ), 0 ≤ (scoresOf f t).getD i 0) := by
  constructor
  · intro f t i hi h
    have : (scoresOf f t).getD i 0 = score_row (rowAt (normalize_metrics f t) i) := by
      rw [scoresOf, getD_map_range]; simp [hi]
    rw [this, score_row, score_foldl_all_some _ h weights 0]
    simp [pymax0, spec_weighted_sum]
  · intro f t i
    by_cases hi : i < nRows t
    · have : (scoresOf f t).getD i 0 = score_row (rowAt (normalize_metrics f t) i) := by
        rw [scoresOf, getD_map_range]; simp [hi]
      rw [this, score_row]
      cases weights.foldl (score_step (rowAt (normalize_metrics f t) i)) (some 0) with
      | none => simp [pymax0]
      | some x => simp [pymax0]
    · rw [scoresOf, getD_map_range]
      simp [hi]

/-- Witness for C1 at the concrete table with one `contributor_count` column
`[3, 5]`, row 0 (the hypothesis of C1 discharged by computation). -/
theorem C1_witness :
    0 < nRows [("contributor_count", [3, 5])] ∧
    (∀ p ∈ rowAt (normalize_metrics id [("contributor_count", [3, 5])]) 0,
      p.2.isSome = true) ∧
    (scoresOf id [("contributor_count", [3, 5])]).getD 0 0 =
      max 0 (spec_weighted_sum (rowAt (normalize_metrics id [("contributor_count", [3, 5])]) 0)) :=
  ⟨by decide, by decide,
    C1_score_eq_weighted_sum_and_nonneg.1 id [("contributor_count", [3, 5])] 0
      (by decide) (by decide)⟩

theorem rankColumn_getD (scores : List ℚ) (i : ℕ) (hi : i < scores.length) :
    (rankColumn scores).getD i 0 = denseRank scores (scores.getD i 0) := by
  rw [rankColumn, List.getD_eq_getElem?_getD, List.getElem?_map,
    List.getElem?_eq_getElem hi, List.getD_eq_getElem?_getD,
    List.getElem?_eq_getElem hi]
  simp

theorem getD_mem_of_lt (scores : List ℚ) (i : ℕ) (hi : i < scores.length) :
    scores.getD i 0 ∈ scores := by
  rw [List.getD_eq_getElem?_getD, List.getElem?_eq_getElem hi]
  exact List.getElem_mem hi

/-- C2.  For every scored table, ranks are dense by score descending: a record
with maximal score has rank 1, equal scores share a rank, and when a record's
score is the next distinct value below another record's score its rank is the
other rank plus 1 (no gaps). -/
theorem C2_dense_rank_descending :
    (∀ (scores : List ℚ) (i : ℕ), i < scores.length →
      (∀ u ∈ scores, u ≤ scores.getD i 0) →
      (rankColumn scores).getD i 0 = 1) ∧
    (∀ (scores : List ℚ) (i j : ℕ), i < scores.length → j < scores.length →
      scores.getD i 0 = scores.getD j 0 →
      (rankColumn scores).getD i 0 = (rankColumn scores).getD j 0) ∧
    (∀ (scores : List ℚ) (i j : ℕ), i < scores.length → j < scores.length →
      scores.getD j 0 < scores.getD i 0 →
      (∀ u ∈ scores, ¬(scores.getD j 0 < u ∧ u < scores.getD i 0)) →
      (rankColumn scores).getD j 0 = (rankColumn scores).getD i 0 + 1) := by
  refine ⟨?_, ?_, ?_⟩
  · intro scores i hi hmax
    rw [rankColumn_getD scores i hi, denseRank]
    have : scores.toFinset.filter (fun u => scores.getD i 0 < u) = ∅ := by
      rw [Finset.filter_eq_empty_iff]
      intro u hu
      exact not_lt.mpr (hmax u (List.mem_toFinset.mp hu))
    rw [this]
    simp
  · intro scores i j hi hj hij
    rw [rankColumn_getD scores i hi, rankColumn_getD scores j hj, hij]
  · intro scores i j hi hj hlt hgap
    rw [rankColumn_getD scores i hi, rankColumn_getD scores j hj, denseRank, denseRank]
    have hfil : scores.toFinset.filter (fun u => scores.getD j 0 < u) =
        insert (scores.getD i 0)
          (scores.toFinset.filter (fun u => scores.getD i 0 < u)) := by
      ext u
      simp only [Finset.mem_filter, Finset.mem_insert, List.mem_toFinset]
      constructor
      · rintro ⟨hu, hju⟩
        rcases lt_trichotomy u (scores.getD i 0) with h1 | h1 | h1
        · exact absurd ⟨hju, h1⟩ (hgap u hu)
        · exact Or.inl h1
        · exact Or.inr ⟨hu, h1⟩
      · rintro (h1 | ⟨hu, h1⟩)
        · exact ⟨h1 ▸ getD_mem_of_lt scores i hi, h1 ▸ hlt⟩
        · exact ⟨hu, lt_trans hlt h1⟩
    rw [hfil, Finset.card_insert_of_not_mem (by simp)]

/-- Witness for C2 at the concrete score column `[3, 1, 3]`: row 0 holds the
maximum (rank 1), rows 0 and 2 tie, and row 1 holds the next distinct value
(rank 2 = 1 + 1). -/
theorem C2_witness :
    ((∀ u ∈ [(3:ℚ), 1, 3], u ≤ [(3:ℚ), 1, 3].getD 0 0) ∧
      (rankColumn [3, 1, 3]).getD 0 0 = 1) ∧
    (([(3:ℚ), 1, 3].getD 0 0 = [(3:ℚ), 1, 3].getD 2 0) ∧
      (rankColumn [3, 1, 3]).getD 0 0 = (rankColumn [3, 1, 3]).getD 2 0) ∧
    (([(3:ℚ), 1, 3].getD 1 0 < [(3:ℚ), 1, 3].getD 0 0) ∧
      (∀ u ∈ [(3:ℚ), 1, 3], ¬([(3:ℚ), 1, 3].getD 1 0 < u ∧ u < [(3:ℚ), 1, 3].getD 0 0)) ∧
      (rankColumn [3, 1, 3]).getD 1 0 = (rankColumn [3, 1, 3]).getD 0 0 + 1) :=
  ⟨⟨by decide, C2_dense_rank_descending.1 [3, 1, 3] 0 (by decide) (by decide)⟩,
   ⟨by decide, C2_dense_rank_descending.2.1 [3, 1, 3] 0 2 (by decide) (by decide) (by decide)⟩,
   ⟨by decide, by decide,
     C2_dense_rank_descending.2.2 [3, 1, 3] 0 1 (by decide) (by decide) (by decide) (by decide)⟩⟩

theorem le_foldl_max (l : List ℚ) : ∀ a : ℚ, a ≤ l.foldl max a := by
  induction l with
  | nil => intro a; exact le_refl a
  | cons x l ih =>
    intro a
    exact le_trans (le_max_left a x) (ih (max a x))

theorem mem_le_foldl_max (l : List ℚ) : ∀ (a b : ℚ), b ∈ l → b ≤ l.foldl max a := by
  induction l with
  | nil => intro a b hb; cases hb
  | cons x l ih =>
    intro a b hb
    rcases List.mem_cons.mp hb with h | h
    · subst h
      exact le_trans (le_max_right a b) (le_foldl_max l (max a b))
    · exact ih (max a x) b h

theorem mem_le_listMax (xs : List ℚ) (x : ℚ) (hx : x ∈ xs) : x ≤ listMax xs := by
  cases xs with
  | nil => cases hx
  | cons y ys =>
    rcases List.mem_cons.mp hx with h | h
    · subst h; exact le_foldl_max ys x
    · exact mem_le_foldl_max ys y x h

theorem foldl_min_le (l : List ℚ) : ∀ a : ℚ, l.foldl min a ≤ a := by
  induction l with
  | nil => intro a; exact le_refl a
  | cons x l ih =>
    intro a
    exact le_trans (ih (min a x)) (min_le_left a x)

theorem foldl_min_le_mem (l : List ℚ) : ∀ (a b : ℚ), b ∈ l → l.foldl min a ≤ b := by
  induction l with
  | nil => intro a b hb; cases hb
  | cons x l ih =>
    intro a b hb
    rcases List.mem_cons.mp hb with h | h
    · subst h
      exact le_trans (foldl_min_le l (min a b)) (min_le_right a b)
    · exact ih (min a x) b h

theorem listMin_le_mem (xs : List ℚ) (x : ℚ) (hx : x ∈ xs) : listMin xs ≤ x := by
  cases xs with
  | nil => cases hx
  | cons y ys =>
    rcases List.mem_cons.mp hx with h | h
    · subst h; exact foldl_min_le ys x
    · exact foldl_min_le_mem ys y x h

theorem minmax_rescale_bounds (xs : List ℚ)
    (hvar : ∃ a ∈ xs, ∃ b ∈ xs, a ≠ b) :
    ∀ v ∈ minmax_rescale xs, ∃ x, v = some x ∧ 0 ≤ x ∧ x ≤ 10 := by
  obtain ⟨a, ha, b, hb, hab⟩ := hvar
  have hlohi : listMin xs < listMax xs := by
    rcases lt_or_le (listMin xs) (listMax xs) with h | h
    · exact h
    · exfalso
      have h1 : a ≤ listMax xs := mem_le_listMax xs a ha
      have h2 : listMin xs ≤ a := listMin_le_mem xs a ha
      have h3 : b ≤ listMax xs := mem_le_listMax xs b hb
      have h4 : listMin xs ≤ b := listMin_le_mem xs b hb
      have : a = b := le_antisymm (le_trans h1 (le_trans h h4))
        (le_trans h3 (le_trans h h2))
      exact hab this
  intro v hv
  rw [minmax_rescale] at hv
  simp only [List.mem_map] at hv
  obtain ⟨x, hx, hveq⟩ := hv
  have hz : listMax xs - listMin xs ≠ 0 := by
    intro h
    exact absurd (by linarith : listMax xs ≤ listMin xs) (not_le.mpr hlohi)
  rw [if_neg hz] at hveq
  refine ⟨(x - listMin xs) / (listMax xs - listMin xs) * 10, hveq.symm, ?_, ?_⟩
  · have h1 : listMin xs ≤ x := listMin_le_mem xs x hx
    have h2 : 0 < listMax xs - listMin xs := by linarith
    exact mul_nonneg (div_nonneg (by linarith) (le_of_lt h2)) (by norm_num)
  · have h1 : x ≤ listMax xs := mem_le_listMax xs x hx
    have h2 : 0 < listMax xs - listMin xs := by linarith
    have h3 : (x - listMin xs) / (listMax xs - listMin xs) ≤ 1 := by
      rw [div_le_one h2]; linarith
    linarith

theorem lin_norm_col_bounds (xs : List ℚ)
    (hnn : ∀ x ∈ xs, 0 ≤ x) (hmax : listMax xs ≠ 0) :
    ∀ v ∈ lin_norm_col xs, ∃ x, v = some x ∧ 0 ≤ x ∧ x ≤ 10 := by
  intro v hv
  rw [lin_norm_col] at hv
  simp only [List.mem_map] at hv
  obtain ⟨x, hx, hveq⟩ := hv
  have hpos : 0 < listMax xs :=
    lt_of_le_of_ne (le_trans (hnn x hx) (mem_le_listMax xs x hx)) (Ne.symm hmax)
  rw [if_neg hmax] at hveq
  refine ⟨x / listMax xs * 10, hveq.symm, ?_, ?_⟩
  · have := hnn x hx
    positivity
  · have h1 : x ≤ listMax xs := mem_le_listMax xs x hx
    have h3 : x / listMax xs ≤ 1 := by rw [div_le_one hpos]; exact h1
    linarith

theorem inv_norm_col_bounds (xs : List ℚ)
    (hnn : ∀ x ∈ xs, 0 ≤ x) (hmax : listMax xs ≠ 0) :
    ∀ v ∈ inv_norm_col xs, ∃ x, v = some x ∧ 0 ≤ x ∧ x ≤ 10 := by
  intro v hv
  rw [inv_norm_col] at hv
  simp only [List.mem_map] at hv
  obtain ⟨x, hx, hveq⟩ := hv
  have hpos : 0 < listMax xs :=
    lt_of_le_of_ne (le_trans (hnn x hx) (mem_le_listMax xs x hx)) (Ne.symm hmax)
  rw [if_neg hmax] at hveq
  refine ⟨(1 - x / listMax xs) * 10, hveq.symm, ?_, ?_⟩
  · have h1 : x ≤ listMax xs := mem_le_listMax xs x hx
    have h3 : x / listMax xs ≤ 1 := by rw [div_le_one hpos]; exact h1
    linarith
  · have h0 : 0 ≤ x := hnn x hx
    have h3 : 0 ≤ x / listMax xs := by positivity
    linarith

theorem getColumn_normalize_metrics (f : ℚ → ℚ) (t : Table) (m : String) :
    getColumn (normalize_metrics f t) m = (getColumn t m).map (norm_transform f m) := by
  induction t with
  | nil => rfl
  | cons c rest ih =>
    by_cases hm : c.1 == m
    · have hm' : c.1 = m := by simpa using hm
      simp [normalize_metrics, getColumn, hm, hm']
    · have hm2 : (c.1 == m) = false := by simpa using hm
      simp only [normalize_metrics, List.map_cons, getColumn, hm2,
        Bool.false_eq_true, if_false]
      simpa [normalize_metrics] using ih

/-- The twelve metric columns recognized by `normalize_metrics`. -/
def metric_columns : List String :=
  log_metrics ++ ["created_since", "updated_since"] ++ simple_metrics

/-- C3 (amended).  Every normalized value of a present metric column is a
determinate number in `[0,10]` (`some x` with `0 ≤ x ≤ 10`) provided the
column is non-degenerate for its normalization class: a log-scaled
(min-max rescaled) column must contain two distinct values, and a linearly
rescaled column (`created_since`, `updated_since`, `language_count`) must be
non-negative with a nonzero maximum.  A zero-variance column of a log-scaled
metric — e.g. any such column of a single-row table — instead yields NaN
(`none`, division `0/0`), as the counterexample exhibits; a single-row
linearly rescaled column with a positive value still normalizes to a
determinate constant (`10`, or `0` for the inverted `updated_since`). -/
theorem C3_normalized_values_in_range (f : ℚ → ℚ) (hf : StrictMono f)
    (t : Table) (m : String) (hm : m ∈ metric_columns)
    (col : List ℚ) (hcol : getColumn t m = some col)
    (hvar : m ∈ log_metrics → ∃ a ∈ col, ∃ b ∈ col, a ≠ b)
    (hlin : m ∉ log_metrics → ((∀ x ∈ col, 0 ≤ x) ∧ listMax col ≠ 0))
    (ncol : List (Option ℚ))
    (hncol : getColumn (normalize_metrics f t) m = some ncol) :
    ∀ v ∈ ncol, ∃ x, v = some x ∧ 0 ≤ x ∧ x ≤ 10 := by
  have heq : ncol = norm_transform f m col := by
    rw [getColumn_normalize_metrics, hcol] at hncol
    simpa using hncol.symm
  subst heq
  rw [norm_transform]
  rcases List.mem_append.mp hm with hmm | hsimple
  · rcases List.mem_append.mp hmm with hlog | hlin1
    · rw [if_pos hlog, log_norm_col]
      apply minmax_rescale_bounds
      obtain ⟨a, ha, b, hb, hab⟩ := hvar hlog
      exact ⟨f a, List.mem_map_of_mem f ha, f b, List.mem_map_of_mem f hb,
        fun h => hab (hf.injective h)⟩
    · rcases List.mem_cons.mp hlin1 with h1 | h1
      · subst h1
        have hnotlog : ¬ ("created_since" ∈ log_metrics) := by decide
        obtain ⟨hnn, hmax⟩ := hlin hnotlog
        rw [if_neg hnotlog, if_pos (by decide)]
        exact lin_norm_col_bounds col hnn hmax
      · have h2 : m = "updated_since" := by simpa using h1
        subst h2
        have hnotlog : ¬ ("updated_since" ∈ log_metrics) := by decide
        obtain ⟨hnn, hmax⟩ := hlin hnotlog
        rw [if_neg hnotlog, if_neg (by decide), if_pos (by decide)]
        exact inv_norm_col_bounds col hnn hmax
  · have h2 : m = "language_count" := by simpa [simple_metrics] using hsimple
    subst h2
    have hnotlog : ¬ ("language_count" ∈ log_metrics) := by decide
    obtain ⟨hnn, hmax⟩ := hlin hnotlog
    rw [if_neg hnotlog, if_neg (by decide), if_neg (by decide),
      if_pos (by decide)]
    exact lin_norm_col_bounds col hnn hmax

/-- Counterexample to C3 as stated: on the single-row table with
`dependents_count = 5`, normalization divides `0` by `0` and the normalized
value is NaN (`none`), not a determinate constant in `[0,10]`. -/
theorem C3_counterexample :
    ¬ (∀ v ∈ (getColumn (normalize_metrics id [("dependents_count", [5])])
          "dependents_count").getD [],
        ∃ x, v = some x ∧ 0 ≤ x ∧ x ≤ 10) := by
  intro h
  have hmem : (none : Option ℚ) ∈
      (getColumn (normalize_metrics id [("dependents_count", [5])])
        "dependents_count").getD [] := by decide
  obtain ⟨x, hx, _⟩ := h none hmem
  exact Option.noConfusion hx

/-- Witness for the amended C3, exercising both normalization classes with
`f := id`: the single-row `created_since` column `[5]` (zero variance, yet a
determinate `some 10`), and the two-row log-scaled `contributor_count` column
`[1, 2]` (normalized to `some 0`, `some 10`). -/
theorem C3_witness :
    (("created_since" ∉ log_metrics) ∧ (∀ x ∈ [(5:ℚ)], 0 ≤ x) ∧ listMax [5] ≠ 0 ∧
      (∀ v ∈ [some (10:ℚ)], ∃ x, v = some x ∧ 0 ≤ x ∧ x ≤ 10)) ∧
    ((∃ a ∈ [(1:ℚ), 2], ∃ b ∈ [(1:ℚ), 2], a ≠ b) ∧
      (∀ v ∈ [some (0:ℚ), some 10], ∃ x, v = some x ∧ 0 ≤ x ∧ x ≤ 10)) :=
  ⟨⟨by decide, by decide, by decide,
    C3_normalized_values_in_range id strictMono_id
      [("created_since", [5])] "created_since" (by decide)
      [5] (by decide) (fun h => absurd h (by decide)) (fun _ => ⟨by decide, by decide⟩)
      [some 10] (by decide)⟩,
   ⟨by decide,
    C3_normalized_values_in_range id strictMono_id
      [("contributor_count", [1, 2])] "contributor_count" (by decide)
      [1, 2] (by decide) (fun _ => by decide)
      (fun h => absurd (by decide : "contributor_count" ∈ log_metrics) h)
      [some 0, some 10] (by decide)⟩⟩

theorem minmax_two (a b : ℚ) (h : b < a) : minmax_rescale [a, b] = [some 10, some 0] := by
  have hmin : listMin [a, b] = b := by
    have : listMin [a, b] = min a b := by simp [listMin]
    rw [this, min_eq_right (le_of_lt h)]
  have hmax : listMax [a, b] = a := by
    have : listMax [a, b] = max a b := by simp [listMax]
    rw [this, max_eq_left (le_of_lt h)]
  have hne : a - b ≠ 0 := sub_ne_zero.mpr (ne_of_gt h)
  simp only [minmax_rescale, hmin, hmax, List.map_cons, List.map_nil, if_neg hne]
  rw [div_self hne]
  norm_num

/-- The two-project table of the spec's end-to-end example: row 0 is project A
(`dependents=10000, contributors=100, updated_since=1`), row 1 is project B
(`dependents=10, contributors=1, updated_since=300`). -/
def example_table : Table :=
  [("dependents_count", [10000, 10]),
   ("contributor_count", [100, 1]),
   ("updated_since", [1, 300])]

/-- C4.  Under the default weight table, project A of the spec's end-to-end
example receives rank 1 and project B rank 2, for every strictly monotone
model `f` of `log10(x+1)`. -/
theorem C4_example_ranking (f : ℚ → ℚ) (hf : StrictMono f) :
    (ranksOf f example_table).getD 0 0 = 1 ∧ (ranksOf f example_table).getD 1 0 = 2 := by
  have e1 : normalize_metrics f example_table =
      [("dependents_count", norm_transform f "dependents_count" [10000, 10]),
       ("contributor_count", norm_transform f "contributor_count" [100, 1]),
       ("updated_since", norm_transform f "updated_since" [1, 300])] := rfl
  have e2 : norm_transform f "dependents_count" [10000, 10] =
      minmax_rescale [f 10000, f 10] := by
    rw [norm_transform, if_pos (by decide), log_norm_col]
    rfl
  have e3 : norm_transform f "contributor_count" [100, 1] =
      minmax_rescale [f 100, f 1] := by
    rw [norm_transform, if_pos (by decide), log_norm_col]
    rfl
  have e4 : norm_transform f "updated_since" [1, 300] = [some (299/30), some 0] := by
    rw [norm_transform, if_neg (by decide), if_neg (by decide), if_pos (by decide)]
    decide
  have hnorm : normalize_metrics f example_table =
      [("dependents_count", [some 10, some 0]),
       ("contributor_count", [some 10, some 0]),
       ("updated_since", [some (299/30), some 0])] := by
    rw [e1, e2, e3, e4, minmax_two (f 10000) (f 10) (hf (by norm_num)),
      minmax_two (f 100) (f 1) (hf (by norm_num))]
  simp only [ranksOf, scoresOf]
  rw [hnorm]
  decide

/-- Witness for C4: instantiating the strictly monotone parameter at the
identity map. -/
theorem C4_witness :
    (ranksOf id example_table).getD 0 0 = 1 ∧ (ranksOf id example_table).getD 1 0 = 2 :=
  C4_example_ranking id strictMono_id

/-- A scored record as consumed by the Underfunded Detector: its
`criticality_score` and its `stars` visibility proxy (the further displayed
columns play no role in the detector's logic). -/
structure ScoredRecord where
  criticality_score : ℚ
  stars : ℚ
deriving DecidableEq

/-- Linear interpolation of a sorted column at fractional index `h`, as done
inside `np.percentile`: between `ys[⌊h⌋]` and the next element (clamped to the
last element, which numpy achieves by clipping the upper index). -/
def interpAt (ys : List ℚ) (h : ℚ) : ℚ :=
  (1 - (h - ⌊h⌋)) * ys.getD (⌊h⌋).toNat 0 +
    (h - ⌊h⌋) * ys.getD ((⌊h⌋).toNat + 1) (ys.getD (⌊h⌋).toNat 0)

/-- Embedding of `np.percentile(xs, p)` with its default linear interpolation:
sort ascending and interpolate at index `(len - 1) * p / 100`.  Meaningful for
non-empty `xs` and `0 ≤ p ≤ 100`; on an empty input `np.percentile` raises,
which callers model by returning `none` before calling this. -/
def percentile (xs : List ℚ) (p : ℚ) : ℚ :=
  interpAt (List.insertionSort (fun a b => a ≤ b) xs) (((xs.length : ℚ) - 1) * p / 100)

/-- The Underfunded Detector with both percentile cutoffs explicit.  The
source hardcodes the visibility percentile to the literal `25`;  `vis`
generalizes that literal so that the spec's two-cutoff interface is
expressible (`analyze_underfunded_critical_projects` below instantiates
`vis := 25`, which is exactly the source).  `none` models the error numpy
raises when a percentile of an empty population is requested. -/
def underfunded_with_vis (tbl : List ScoredRecord) (threshold_percentile vis : ℚ) :
    Option (List ScoredRecord) :=
  if tbl = [] then none else
  some (List.insertionSort (fun a b => b.criticality_score ≤ a.criticality_score)
    (tbl.filter (fun r => decide
      (percentile (tbl.map (fun x => x.criticality_score)) threshold_percentile ≤
          r.criticality_score ∧
        r.stars ≤ percentile (tbl.map (fun x => x.stars)) vis))))

/-- Embedding of `analyze_underfunded_critical_projects(df_scored,
threshold_percentile)` from `c_score.py`: the high-score cutoff is the given
percentile of `criticality_score`, the low-visibility cutoff is the 25th
percentile of `stars` (a hardcoded literal in the source), and the matching
records are returned sorted by score descending. -/
def analyze_underfunded_critical_projects (tbl : List ScoredRecord)
    (threshold_percentile : ℚ) : Option (List ScoredRecord) :=
  underfunded_with_vis tbl threshold_percentile 25

theorem sorted_get_mono (ys : List ℚ) (hs : List.Sorted (fun a b => a ≤ b) ys)
    (a b : ℕ) (hab : a ≤ b) (hb : b < ys.length) :
    ys.get ⟨a, lt_of_le_of_lt hab hb⟩ ≤ ys.get ⟨b, hb⟩ := by
  rcases eq_or_lt_of_le hab with h | h
  · subst h; exact le_refl _
  · exact List.Sorted.rel_get_of_lt hs (by simpa using h)

theorem interpAt_le_next (ys : List ℚ) (hs : List.Sorted (fun a b => a ≤ b) ys)
    (h : ℚ) (hub : (⌊h⌋).toNat < ys.length) :
    ys.getD (⌊h⌋).toNat 0 ≤ ys.getD ((⌊h⌋).toNat + 1) (ys.getD (⌊h⌋).toNat 0) := by
  by_cases hnext : (⌊h⌋).toNat + 1 < ys.length
  · rw [List.getD_eq_getElem ys 0 hub, List.getD_eq_getElem ys _ hnext]
    exact sorted_get_mono ys hs _ _ (Nat.le_succ _) hnext
  · rw [List.getD_eq_default _ _ (Nat.le_of_not_lt hnext)]

theorem interpAt_mono (ys : List ℚ) (hs : List.Sorted (fun a b => a ≤ b) ys)
    (h h' : ℚ) (h0 : 0 ≤ h) (hhh : h ≤ h') (hub : h' ≤ (ys.length : ℚ) - 1) :
    interpAt ys h ≤ interpAt ys h' := by
  have h0' : 0 ≤ h' := le_trans h0 hhh
  have hfl0 : 0 ≤ ⌊h⌋ := Int.floor_nonneg.mpr h0
  have hfl0' : 0 ≤ ⌊h'⌋ := Int.floor_nonneg.mpr h0'
  have hflle : ⌊h⌋ ≤ ⌊h'⌋ := Int.floor_le_floor hhh
  have hlen1 : (1 : ℚ) ≤ (ys.length : ℚ) := by linarith
  have hlen : 1 ≤ ys.length := by exact_mod_cast hlen1
  have hcast : ((ys.length : ℚ) - 1) = ((ys.length - 1 : ℕ) : ℚ) := by
    push_cast [Nat.cast_sub hlen]
    ring
  have hjle : ⌊h'⌋ ≤ (ys.length - 1 : ℕ) := by
    have : ⌊h'⌋ ≤ ⌊((ys.length - 1 : ℕ) : ℚ)⌋ := Int.floor_le_floor (by rw [← hcast]; exact hub)
    simpa using this
  have hjlt : (⌊h'⌋).toNat < ys.length := by
    omega
  have hilt : (⌊h⌋).toNat < ys.length := by
    have : (⌊h⌋).toNat ≤ (⌊h'⌋).toNat := Int.toNat_le_toNat hflle
    omega
  have hga : 0 ≤ h - ⌊h⌋ := by
    have := Int.floor_le h
    linarith
  have hga1 : h - ⌊h⌋ < 1 := by
    have := Int.lt_floor_add_one h
    push_cast at this ⊢
    linarith
  have hgb : 0 ≤ h' - ⌊h'⌋ := by
    have := Int.floor_le h'
    linarith
  have hgb1 : h' - ⌊h'⌋ < 1 := by
    have := Int.lt_floor_add_one h'
    push_cast at this ⊢
    linarith
  rcases eq_or_lt_of_le hflle with heq | hlt
  · -- same integer cell: linear interpolation with a larger fraction
    have hAB := interpAt_le_next ys hs h hilt
    rw [interpAt, interpAt, ← heq]
    have hgg : h - ⌊h⌋ ≤ h' - ⌊h'⌋ := by
      rw [← heq]
      linarith
    set A := ys.getD (⌊h⌋).toNat 0 with hA
    set B := ys.getD ((⌊h⌋).toNat + 1) (ys.getD (⌊h⌋).toNat 0) with hB
    nlinarith [mul_nonneg (sub_nonneg.mpr hgg) (sub_nonneg.mpr hAB)]
  · -- the upper index advances: chain through the sorted column
    have hisucc : (⌊h⌋).toNat + 1 ≤ (⌊h'⌋).toNat := by omega
    have hstep1 : interpAt ys h ≤ ys.getD ((⌊h⌋).toNat + 1) (ys.getD (⌊h⌋).toNat 0) := by
      have hAB := interpAt_le_next ys hs h hilt
      rw [interpAt]
      set A := ys.getD (⌊h⌋).toNat 0 with hA
      set B := ys.getD ((⌊h⌋).toNat + 1) (ys.getD (⌊h⌋).toNat 0) with hB
      nlinarith [mul_nonneg (sub_nonneg.mpr hga) (sub_nonneg.mpr hAB)]
    have hnextlt : (⌊h⌋).toNat + 1 < ys.length := lt_of_le_of_lt hisucc hjlt
    have hstep2 : ys.getD ((⌊h⌋).toNat + 1) (ys.getD (⌊h⌋).toNat 0) ≤
        ys.getD (⌊h'⌋).toNat 0 := by
      rw [List.getD_eq_getElem ys _ hnextlt, List.getD_eq_getElem ys 0 hjlt]
      exact sorted_get_mono ys hs _ _ hisucc hjlt
    have hstep3 : ys.getD (⌊h'⌋).toNat 0 ≤ interpAt ys h' := by
      have hAB := interpAt_le_next ys hs h' hjlt
      rw [interpAt]
      set A := ys.getD (⌊h'⌋).toNat 0 with hA
      set B := ys.getD ((⌊h'⌋).toNat + 1) (ys.getD (⌊h'⌋).toNat 0) with hB
      nlinarith [mul_nonneg hgb (sub_nonneg.mpr hAB)]
    linarith

theorem percentile_mono (xs : List ℚ) (hne : xs ≠ []) (p q : ℚ)
    (h0 : 0 ≤ p) (hpq : p ≤ q) (h100 : q ≤ 100) :
    percentile xs p ≤ percentile xs q := by
  have hlen : 1 ≤ xs.length := List.length_pos.mpr hne
  have hlen1 : (1 : ℚ) ≤ (xs.length : ℚ) := by exact_mod_cast hlen
  have hsorted : List.Sorted (fun a b => a ≤ b) (List.insertionSort (fun a b => a ≤ b) xs) := by
    exact List.sorted_insertionSort (fun a b => a ≤ b) xs
  rw [percentile, percentile]
  apply interpAt_mono _ hsorted
  · apply div_nonneg _ (by norm_num)
    exact mul_nonneg (by linarith) h0
  · apply div_le_div_of_nonneg_right ?_ (by norm_num)
    exact mul_le_mul_of_nonneg_left hpq (by linarith)
  · rw [List.length_insertionSort]
    rw [div_le_iff₀ (by norm_num : (0:ℚ) < 100)]
    nlinarith

theorem underfunded_with_vis_mem (tbl : List ScoredRecord) (p vis : ℚ)
    (out : List ScoredRecord) (hout : underfunded_with_vis tbl p vis = some out)
    (r : ScoredRecord) :
    r ∈ out ↔ (r ∈ tbl ∧
      percentile (tbl.map (fun x => x.criticality_score)) p ≤ r.criticality_score ∧
      r.stars ≤ percentile (tbl.map (fun x => x.stars)) vis) := by
  rw [underfunded_with_vis] at hout
  by_cases hne : tbl = []
  · rw [if_pos hne] at hout
    exact Option.noConfusion hout
  · rw [if_neg hne] at hout
    obtain rfl := Option.some_inj.mp hout
    simp [List.mem_insertionSort, List.mem_filter, decide_eq_true_eq, and_assoc]

/-- C5 (amended: the scored population must be non-empty, since
`np.percentile` raises on an empty one).  The Underfunded Detector returns
exactly the records whose score is at least the high-score percentile cutoff
and whose stars are at most the low-visibility percentile cutoff, sorted by
score descending; the result is a subset of the input, and when no record
satisfies both conditions the result is (error-free) empty. -/
theorem C5_underfunded_detector (tbl : List ScoredRecord) (p : ℚ) (hne : tbl ≠ []) :
    ∃ out, analyze_underfunded_critical_projects tbl p = some out ∧
      (∀ r, r ∈ out ↔ (r ∈ tbl ∧
        percentile (tbl.map (fun x => x.criticality_score)) p ≤ r.criticality_score ∧
        r.stars ≤ percentile (tbl.map (fun x => x.stars)) 25)) ∧
      (∀ r ∈ out, r ∈ tbl) ∧
      List.Sorted (fun a b => b.criticality_score ≤ a.criticality_score) out ∧
      ((∀ r ∈ tbl,
          ¬(percentile (tbl.map (fun x => x.criticality_score)) p ≤ r.criticality_score ∧
            r.stars ≤ percentile (tbl.map (fun x => x.stars)) 25)) → out = []) := by
  have hout : analyze_underfunded_critical_projects tbl p =
      some (List.insertionSort (fun a b => b.criticality_score ≤ a.criticality_score)
        (tbl.filter (fun r => decide
          (percentile (tbl.map (fun x => x.criticality_score)) p ≤ r.criticality_score ∧
            r.stars ≤ percentile (tbl.map (fun x => x.stars)) 25)))) := by
    rw [analyze_underfunded_critical_projects, underfunded_with_vis, if_neg hne]
  refine ⟨_, hout, underfunded_with_vis_mem tbl p 25 _ hout, ?_, ?_, ?_⟩
  · intro r hr
    exact ((underfunded_with_vis_mem tbl p 25 _ hout r).mp hr).1
  · haveI : IsTotal ScoredRecord (fun a b => b.criticality_score ≤ a.criticality_score) :=
      ⟨fun a b => le_total b.criticality_score a.criticality_score⟩
    haveI : IsTrans ScoredRecord (fun a b => b.criticality_score ≤ a.criticality_score) :=
      ⟨fun _ _ _ hab hbc => le_trans hbc hab⟩
    exact List.sorted_insertionSort _ _
  · intro hnone
    have hfil : tbl.filter (fun r => decide
        (percentile (tbl.map (fun x => x.criticality_score)) p ≤ r.criticality_score ∧
          r.stars ≤ percentile (tbl.map (fun x => x.stars)) 25)) = [] := by
      rw [List.filter_eq_nil_iff]
      intro a ha
      simpa [decide_eq_true_eq] using hnone a ha
    rw [hfil]
    rfl

/-- Witness for C5 at the one-record table `[⟨1, 5⟩]` with the default 75th
score percentile: the single record passes both cutoffs. -/
theorem C5_witness :
    ∃ out, analyze_underfunded_critical_projects [⟨1, 5⟩] 75 = some out ∧
      (∀ r, r ∈ out ↔ (r ∈ [(⟨1, 5⟩ : ScoredRecord)] ∧
        percentile ([(⟨1, 5⟩ : ScoredRecord)].map (fun x => x.criticality_score)) 75 ≤
          r.criticality_score ∧
        r.stars ≤ percentile ([(⟨1, 5⟩ : ScoredRecord)].map (fun x => x.stars)) 25)) ∧
      (∀ r ∈ out, r ∈ [(⟨1, 5⟩ : ScoredRecord)]) ∧
      List.Sorted (fun a b => b.criticality_score ≤ a.criticality_score) out ∧
      ((∀ r ∈ [(⟨1, 5⟩ : ScoredRecord)],
          ¬(percentile ([(⟨1, 5⟩ : ScoredRecord)].map (fun x => x.criticality_score)) 75 ≤
              r.criticality_score ∧
            r.stars ≤ percentile ([(⟨1, 5⟩ : ScoredRecord)].map (fun x => x.stars)) 25)) →
        out = []) :=
  C5_underfunded_detector [⟨1, 5⟩] 75 (by decide)

/-- C10.  The low-visibility cutoff of the Underfunded Detector is the 25th
percentile of `stars` regardless of the `threshold_percentile` argument: for
every table and every `p`, the flagged set is exactly the records with score
at least `percentile(score, p)` and stars at most `percentile(stars, 25)`. -/
theorem C10_visibility_cutoff_always_25 (tbl : List ScoredRecord) :
    ∀ (p : ℚ) (out : List ScoredRecord),
      analyze_underfunded_critical_projects tbl p = some out →
      ∀ r, r ∈ out ↔ (r ∈ tbl ∧
        percentile (tbl.map (fun x => x.criticality_score)) p ≤ r.criticality_score ∧
        r.stars ≤ percentile (tbl.map (fun x => x.stars)) 25) :=
  fun p out hout r => underfunded_with_vis_mem tbl p 25 out hout r

/-- Witness for C10 at the one-record table `[⟨2, 7⟩]` with `p = 50`. -/
theorem C10_witness :
    analyze_underfunded_critical_projects [⟨2, 7⟩] 50 = some [⟨2, 7⟩] ∧
    (∀ r, r ∈ [(⟨2, 7⟩ : ScoredRecord)] ↔ (r ∈ [(⟨2, 7⟩ : ScoredRecord)] ∧
      percentile ([(⟨2, 7⟩ : ScoredRecord)].map (fun x => x.criticality_score)) 50 ≤
        r.criticality_score ∧
      r.stars ≤ percentile ([(⟨2, 7⟩ : ScoredRecord)].map (fun x => x.stars)) 25)) :=
  ⟨by decide, C10_visibility_cutoff_always_25 [⟨2, 7⟩] 50 [⟨2, 7⟩] (by decide)⟩

/-- Counterexample to C6 as stated: on the table `[⟨1, 1⟩, ⟨1, 100⟩]` with
score cutoff 75, raising the visibility percentile cutoff from 25 to 100
grows the flagged set from one record to two, so the flagged set is not
antitone in the visibility cutoff. -/
theorem C6_counterexample :
    ¬ (∀ q q' : ℚ, 0 ≤ q → q ≤ q' → q' ≤ 100 →
        ∀ o o', underfunded_with_vis [⟨1, 1⟩, ⟨1, 100⟩] 75 q = some o →
          underfunded_with_vis [⟨1, 1⟩, ⟨1, 100⟩] 75 q' = some o' →
          o'.length ≤ o.length) := by
  intro hclaim
  have h1 : underfunded_with_vis [⟨1, 1⟩, ⟨1, 100⟩] 75 25 = some [⟨1, 1⟩] := by decide
  have h2 : underfunded_with_vis [⟨1, 1⟩, ⟨1, 100⟩] 75 100 =
      some [⟨1, 1⟩, ⟨1, 100⟩] := by decide
  have := hclaim 25 100 (by norm_num) (by norm_num) (le_refl _) _ _ h1 h2
  simp at this

/-- C6 (amended).  Raising the visibility percentile cutoff never DECREASES
the size of the flagged set: the flagged set is monotone (isotone), not
antitone, in the visibility percentile cutoff. -/
theorem C6_vis_cutoff_monotone (tbl : List ScoredRecord) (p q q' : ℚ)
    (h0 : 0 ≤ q) (hqq : q ≤ q') (h100 : q' ≤ 100)
    (out out' : List ScoredRecord)
    (hout : underfunded_with_vis tbl p q = some out)
    (hout' : underfunded_with_vis tbl p q' = some out') :
    out.length ≤ out'.length := by
  rw [underfunded_with_vis] at hout hout'
  by_cases hne : tbl = []
  · rw [if_pos hne] at hout
    exact Option.noConfusion hout
  · rw [if_neg hne] at hout hout'
    obtain rfl := Option.some_inj.mp hout
    obtain rfl := Option.some_inj.mp hout'
    rw [List.length_insertionSort, List.length_insertionSort]
    apply List.Sublist.length_le
    apply List.monotone_filter_right
    intro a ha
    rw [decide_eq_true_eq] at ha
    rw [decide_eq_true_eq]
    refine ⟨ha.1, le_trans ha.2 ?_⟩
    apply percentile_mono _ _ q q' h0 hqq h100
    simpa using hne

/-- Witness for the amended C6 on the counterexample table: the flagged count
grows from 1 to 2 as the visibility cutoff rises from 25 to 100. -/
theorem C6_witness :
    (0 : ℚ) ≤ 25 ∧ (25 : ℚ) ≤ 100 ∧ (100 : ℚ) ≤ 100 ∧
    underfunded_with_vis [⟨1, 1⟩, ⟨1, 100⟩] 75 25 = some [⟨1, 1⟩] ∧
    underfunded_with_vis [⟨1, 1⟩, ⟨1, 100⟩] 75 100 = some [⟨1, 1⟩, ⟨1, 100⟩] ∧
    ([(⟨1, 1⟩ : ScoredRecord)]).length ≤ ([(⟨1, 1⟩ : ScoredRecord), ⟨1, 100⟩]).length :=
  ⟨by norm_num, by norm_num, le_refl _, by decide, by decide,
    C6_vis_cutoff_monotone [⟨1, 1⟩, ⟨1, 100⟩] 75 25 100 (by norm_num) (by norm_num)
      (le_refl _) [⟨1, 1⟩] [⟨1, 1⟩, ⟨1, 100⟩] (by decide) (by decide)⟩

/-- Counterexample to C5 as stated: on the empty scored table — where
vacuously no record satisfies both conditions — the detector does not return
an empty result; `np.percentile` of the empty population raises (modelled by
`none`). -/
theorem C5_counterexample :
    (∀ r ∈ ([] : List ScoredRecord),
      ¬(percentile (([] : List ScoredRecord).map (fun x => x.criticality_score)) 75 ≤
          r.criticality_score ∧
        r.stars ≤ percentile (([] : List ScoredRecord).map (fun x => x.stars)) 25)) ∧
    ¬ ∃ out, analyze_underfunded_critical_projects [] 75 = some out := by
  constructor
  · intro r hr
    cases hr
  · rintro ⟨out, hout⟩
    rw [analyze_underfunded_critical_projects, underfunded_with_vis, if_pos rfl] at hout
    exact Option.noConfusion hout

/-- The whitespace characters stripped by polars `str.strip_chars()` (the
forms that occur in identifier data). -/
def isSpaceChar (c : Char) : Bool :=
  (c == ' ') || (c == '\t') || (c == '\n') || (c == '\r')

/-- ASCII case-folding table.  Repository identifiers are ASCII; characters
outside `A`–`Z` are left unchanged, which is also what Unicode lowercasing
does on the ASCII subset. -/
def upper_lower_table : List (Char × Char) :=
  [('A','a'), ('B','b'), ('C','c'), ('D','d'), ('E','e'), ('F','f'), ('G','g'),
   ('H','h'), ('I','i'), ('J','j'), ('K','k'), ('L','l'), ('M','m'), ('N','n'),
   ('O','o'), ('P','p'), ('Q','q'), ('R','r'), ('S','s'), ('T','t'), ('U','u'),
   ('V','v'), ('W','w'), ('X','x'), ('Y','y'), ('Z','z')]

/-- Lowercasing of one character (the embedding of `str.to_lowercase` on the
identifier alphabet). -/
def lower_char (c : Char) : Char :=
  match upper_lower_table.find? (fun p => p.1 == c) with
  | some p => p.2
  | none => c

/-- Embedding of polars `str.strip_chars()`: remove leading and trailing
whitespace. -/
def strip_chars_ws (s : List Char) : List Char :=
  ((s.dropWhile isSpaceChar).reverse.dropWhile isSpaceChar).reverse

/-- Embedding of polars `str.strip_chars_end('/')`: remove all trailing `/`
characters. -/
def strip_chars_end_slash (s : List Char) : List Char :=
  (s.reverse.dropWhile (fun c => c == '/')).reverse

/-- Embedding of polars `str.to_lowercase()`. -/
def to_lowercase (s : List Char) : List Char :=
  s.map lower_char

/-- Canonicalization of a repository identifier, exactly as chained in
`dependency_graph_generator.py` and `graph_generator.py`:
`strip_chars().strip_chars_end('/').to_lowercase()`. -/
def canonical_id (s : List Char) : List Char :=
  to_lowercase (strip_chars_end_slash (strip_chars_ws s))

theorem lower_char_eq (c : Char) :
    lower_char c = c ∨ ∃ p ∈ upper_lower_table, lower_char c = p.2 := by
  cases hfind : upper_lower_table.find? (fun p => p.1 == c) with
  | none =>
    left
    rw [lower_char, hfind]
  | some p =>
    right
    exact ⟨p, List.mem_of_find?_eq_some hfind, by rw [lower_char, hfind]⟩

theorem lower_char_idem (c : Char) : lower_char (lower_char c) = lower_char c := by
  rcases lower_char_eq c with h | ⟨p, hp, h⟩
  · rw [h, h]
  · rw [h]
    have hall : ∀ q ∈ upper_lower_table,
        upper_lower_table.find? (fun r => r.1 == q.2) = none := by decide
    rw [lower_char, hall p hp]

theorem lower_char_not_space (c : Char) (h : isSpaceChar c = false) :
    isSpaceChar (lower_char c) = false := by
  rcases lower_char_eq c with h1 | ⟨p, hp, h1⟩
  · rw [h1]; exact h
  · rw [h1]
    have hall : ∀ q ∈ upper_lower_table, isSpaceChar q.2 = false := by decide
    exact hall p hp

theorem lower_char_not_slash (c : Char) (h : (c == '/') = false) :
    (lower_char c == '/') = false := by
  rcases lower_char_eq c with h1 | ⟨p, hp, h1⟩
  · rw [h1]; exact h
  · rw [h1]
    have hall : ∀ q ∈ upper_lower_table, (q.2 == '/') = false := by decide
    exact hall p hp

theorem head?_of_listExtends {α : Type} {l₁ l₂ : List α} (h : l₁ <+: l₂) (c : α)
    (hc : l₁.head? = some c) : l₂.head? = some c := by
  obtain ⟨t, rfl⟩ := h
  cases l₁ with
  | nil => exact Option.noConfusion hc
  | cons a l => simpa using hc

theorem reverse_dropWhile_extends {α : Type} (p : α → Bool) (l : List α) :
    (l.reverse.dropWhile p).reverse <+: l := by
  have h := List.dropWhile_suffix (l := l.reverse) p
  have h2 := Iff.mpr List.reverse_prefix h
  rwa [List.reverse_reverse] at h2

theorem dropWhile_eq_self_of_head? {α : Type} (p : α → Bool) (l : List α)
    (h : ∀ c, l.head? = some c → p c = false) : l.dropWhile p = l := by
  cases l with
  | nil => rfl
  | cons a t =>
    have := h a rfl
    rw [List.dropWhile_cons_of_neg (by simp [this])]

theorem reverse_dropWhile_eq_self {α : Type} (p : α → Bool) (l : List α)
    (h : ∀ c, l.getLast? = some c → p c = false) :
    (l.reverse.dropWhile p).reverse = l := by
  rw [dropWhile_eq_self_of_head? p l.reverse
    (fun c hc => h c (by rwa [List.head?_reverse] at hc))]
  exact List.reverse_reverse l

theorem canonical_id_head_not_space (s : List Char) :
    ∀ c, (canonical_id s).head? = some c → isSpaceChar c = false := by
  intro c hc
  rw [canonical_id, to_lowercase, List.head?_map] at hc
  cases hz : (strip_chars_end_slash (strip_chars_ws s)).head? with
  | none => rw [hz] at hc; exact Option.noConfusion hc
  | some c₀ =>
    rw [hz] at hc
    have hcz : c = lower_char c₀ := by simpa using hc.symm
    have h1 : (strip_chars_ws s).head? = some c₀ :=
      head?_of_listExtends
        (reverse_dropWhile_extends (fun c => c == '/') (strip_chars_ws s)) c₀ hz
    rw [strip_chars_ws] at h1
    have h2 : ((s.dropWhile isSpaceChar).head?) = some c₀ :=
      head?_of_listExtends (reverse_dropWhile_extends isSpaceChar _) c₀ h1
    have h3 := List.head?_dropWhile_not isSpaceChar s
    rw [h2] at h3
    rw [hcz]
    exact lower_char_not_space c₀ h3

theorem canonical_id_getLast_not_slash (s : List Char) :
    ∀ c, (canonical_id s).getLast? = some c → (c == '/') = false := by
  intro c hc
  rw [canonical_id, to_lowercase, List.getLast?_map] at hc
  cases hz : (strip_chars_end_slash (strip_chars_ws s)).getLast? with
  | none => rw [hz] at hc; exact Option.noConfusion hc
  | some c₀ =>
    rw [hz] at hc
    have hcz : c = lower_char c₀ := by simpa using hc.symm
    rw [strip_chars_end_slash, ← List.head?_reverse, List.reverse_reverse] at hz
    have h3 := List.head?_dropWhile_not (fun c => c == '/') (strip_chars_ws s).reverse
    rw [hz] at h3
    rw [hcz]
    exact lower_char_not_slash c₀ h3

/-- C7 (amended).  Identifier canonicalization collapses `"Foo/Bar/"` and
`"foo/bar"` to the same identifier, and it is idempotent on every identifier
whose canonical form does not end in whitespace (in particular on every
identifier containing no whitespace).  It is NOT idempotent in general:
stripping trailing slashes can expose interior whitespace, see the
counterexample `"a /"`. -/
theorem C7_canonicalization (s : List Char)
    (hlast : (canonical_id s).getLast?.all (fun c => !(isSpaceChar c)) = true) :
    canonical_id (canonical_id s) = canonical_id s ∧
    canonical_id ("Foo/Bar/".toList) = canonical_id ("foo/bar".toList) := by
  have hlast' : ∀ c, (canonical_id s).getLast? = some c → isSpaceChar c = false := by
    intro c hc
    rw [hc] at hlast
    simpa using hlast
  constructor
  · have hws : strip_chars_ws (canonical_id s) = canonical_id s := by
      rw [strip_chars_ws,
        dropWhile_eq_self_of_head? isSpaceChar _ (canonical_id_head_not_space s)]
      exact reverse_dropWhile_eq_self isSpaceChar _ hlast'
    have hsl : strip_chars_end_slash (canonical_id s) = canonical_id s := by
      rw [strip_chars_end_slash]
      exact reverse_dropWhile_eq_self _ _ (canonical_id_getLast_not_slash s)
    have hlow : to_lowercase (canonical_id s) = canonical_id s := by
      rw [canonical_id, to_lowercase, to_lowercase, List.map_map]
      exact List.map_congr_left (fun a _ => lower_char_idem a)
    calc canonical_id (canonical_id s)
        = to_lowercase (strip_chars_end_slash (canonical_id s)) := by
          rw [canonical_id, hws]
      _ = to_lowercase (canonical_id s) := by rw [hsl]
      _ = canonical_id s := hlow
  · decide

/-- Counterexample to C7 as stated: canonicalization is not idempotent — on
`"a /"` the first pass strips the slash and exposes a trailing space, which
only the second pass removes. -/
theorem C7_counterexample :
    canonical_id (canonical_id ("a /".toList)) ≠ canonical_id ("a /".toList) := by
  decide

/-- Witness for the amended C7 at `"Foo/Bar/"` (canonical form `"foo/bar"`,
which ends in `r`, not whitespace). -/
theorem C7_witness :
    (canonical_id ("Foo/Bar/".toList)).getLast?.all (fun c => !(isSpaceChar c)) = true ∧
    (canonical_id (canonical_id ("Foo/Bar/".toList)) = canonical_id ("Foo/Bar/".toList) ∧
      canonical_id ("Foo/Bar/".toList) = canonical_id ("foo/bar".toList)) :=
  ⟨by decide, C7_canonicalization ("Foo/Bar/".toList) (by decide)⟩

/-- One raw dependency observation as it reaches the `group_by` in
`dependency_graph_generator.py` (after canonicalization, self-edge removal and
null dropping upstream): canonical source, canonical target, multiplier. -/
structure RawEdge where
  source : String
  target : String
  multiplier : ℚ
deriving DecidableEq

/-- An aggregated edge: (source, target) key, mean multiplier, observation
count. -/
structure AggEdge where
  source : String
  target : String
  multiplier : ℚ
  count : ℕ
deriving DecidableEq

/-- The grouping key of a raw observation. -/
def edge_key (e : RawEdge) : String × String := (e.source, e.target)

/-- Embedding of
`edges_df.group_by(["source","target"]).agg(multiplier.mean(), multiplier.count())`:
one output edge per distinct (source, target) key, carrying the arithmetic mean
of the group's multipliers and the group size. -/
def group_by_edges (rows : List RawEdge) : List AggEdge :=
  ((rows.map edge_key).dedup).map (fun k =>
    ⟨k.1, k.2,
      ((rows.filter (fun e => decide (edge_key e = k))).map (fun e => e.multiplier)).sum /
        ((rows.filter (fun e => decide (edge_key e = k))).length : ℚ),
      (rows.filter (fun e => decide (edge_key e = k))).length⟩)

theorem filter_map_by_key {κ β : Type} [DecidableEq κ] (ks : List κ) (F : κ → β)
    (key : β → κ) (hkey : ∀ x, key (F x) = x) (k : κ) (hnd : ks.Nodup)
    (hk : k ∈ ks) :
    (ks.map F).filter (fun e => decide (key e = k)) = [F k] := by
  induction ks with
  | nil => cases hk
  | cons a ks ih =>
    rw [List.map_cons, List.filter_cons]
    by_cases hak : a = k
    · subst hak
      rw [if_pos (by simp [hkey])]
      have hnotin : a ∉ ks := (List.nodup_cons.mp hnd).1
      have hrest : (ks.map F).filter (fun e => decide (key e = a)) = [] := by
        rw [List.filter_eq_nil_iff]
        intro b hb
        obtain ⟨x, hx, rfl⟩ := List.mem_map.mp hb
        simp only [hkey, decide_eq_true_eq]
        intro hxa
        exact hnotin (hxa ▸ hx)
      rw [hrest]
    · rw [if_neg (by simp [hkey, hak])]
      have hk2 : k ∈ ks := by
        rcases List.mem_cons.mp hk with h | h
        · exact absurd h.symm hak
        · exact h
      exact ih (List.nodup_cons.mp hnd).2 hk2

/-- C8.  The Edge Aggregator groups rows by their (source, target) pair and
yields, for each key present, exactly one edge whose multiplier is the
arithmetic mean of the group and whose count is the group size; in particular
two observations of one pair with multipliers 2.0 and 4.0 merge into a single
edge with mean 3.0 and count 2. -/
theorem C8_edge_aggregator :
    (∀ (rows : List RawEdge) (k : String × String), k ∈ rows.map edge_key →
      (group_by_edges rows).filter (fun e => decide ((e.source, e.target) = k)) =
        [⟨k.1, k.2,
          ((rows.filter (fun e => decide (edge_key e = k))).map
            (fun e => e.multiplier)).sum /
            ((rows.filter (fun e => decide (edge_key e = k))).length : ℚ),
          (rows.filter (fun e => decide (edge_key e = k))).length⟩]) ∧
    (∀ (s t : String), group_by_edges [⟨s, t, 2⟩, ⟨s, t, 4⟩] = [⟨s, t, 3, 2⟩]) := by
  constructor
  · intro rows k hk
    exact filter_map_by_key (rows.map edge_key).dedup _
      (fun e : AggEdge => (e.source, e.target)) (fun x => rfl) k
      (List.nodup_dedup _) (List.mem_dedup.mpr hk)
  · intro s t
    have hded : (([⟨s, t, 2⟩, ⟨s, t, 4⟩] : List RawEdge).map edge_key).dedup =
        [(s, t)] := by
      simp [edge_key, List.dedup_cons_of_mem]
    rw [group_by_edges, hded]
    simp only [List.map_cons, List.map_nil, List.filter_cons, List.filter_nil,
      edge_key, decide_eq_true_eq, if_pos rfl]
    norm_num

/-- Witness for C8 at the two concrete observations `("x","y",2)` and
`("x","y",4)`. -/
theorem C8_witness :
    ("x", "y") ∈ ([⟨"x", "y", 2⟩, ⟨"x", "y", 4⟩] : List RawEdge).map edge_key ∧
    (group_by_edges [⟨"x", "y", 2⟩, ⟨"x", "y", 4⟩]).filter
        (fun e => decide ((e.source, e.target) = ("x", "y"))) =
      [⟨"x", "y",
        ((([⟨"x", "y", 2⟩, ⟨"x", "y", 4⟩] : List RawEdge).filter
            (fun e => decide (edge_key e = ("x", "y")))).map
          (fun e => e.multiplier)).sum /
          ((([⟨"x", "y", 2⟩, ⟨"x", "y", 4⟩] : List RawEdge).filter
            (fun e => decide (edge_key e = ("x", "y")))).length : ℚ),
        (([⟨"x", "y", 2⟩, ⟨"x", "y", 4⟩] : List RawEdge).filter
          (fun e => decide (edge_key e = ("x", "y")))).length⟩] :=
  ⟨by decide, C8_edge_aggregator.1 [⟨"x", "y", 2⟩, ⟨"x", "y", 4⟩] ("x", "y") (by decide)⟩

/-- A weighted, counted directed edge as added to the NetworkX graph via
`G.add_edge(source, target, weight=multiplier, count=count)`. -/
structure CEdge where
  source : String
  target : String
  weight : ℚ
  count : ℕ
deriving DecidableEq

/-- Embedding of `edges_df.filter(pl.col("count") >= MIN_COUNT)`. -/
def filter_by_count (es : List CEdge) (minCount : ℕ) : List CEdge :=
  es.filter (fun e => decide (minCount ≤ e.count))

/-- The node set of the graph built from an edge list (NetworkX adds exactly
the endpoints of added edges). -/
def nodesOf (es : List CEdge) : List String :=
  (es.map (fun e => e.source) ++ es.map (fun e => e.target)).dedup

/-- One adjacency step ignoring edge direction. -/
def adjU (es : List CEdge) (u v : String) : Prop :=
  (∃ e ∈ es, e.source = u ∧ e.target = v) ∨ (∃ e ∈ es, e.source = v ∧ e.target = u)

/-- Reachability ignoring edge direction (the relation underlying
`nx.weakly_connected_components`). -/
def reachU (es : List CEdge) (u v : String) : Prop :=
  Relation.ReflTransGen (adjU es) u v

/-- Weak connectivity, the property `nx.is_weakly_connected` decides: all
nodes mutually reachable ignoring direction. -/
def IsWeaklyConnected (es : List CEdge) : Prop :=
  ∀ u ∈ nodesOf es, ∀ v ∈ nodesOf es, reachU es u v

/-- `G.subgraph(C)`: the edges with both endpoints in `C`. -/
def induced_edges (es : List CEdge) (C : List String) : List CEdge :=
  es.filter (fun e => decide (e.source ∈ C ∧ e.target ∈ C))

/-- `C` is the weakly-connected component of the node `v`. -/
def IsWccFrom (es : List CEdge) (v : String) (C : List String) : Prop :=
  v ∈ nodesOf es ∧ C.Nodup ∧ (∀ u, u ∈ C ↔ (u ∈ nodesOf es ∧ reachU es v u))

/-- `C` is a largest weakly-connected component by node count — what
`max(nx.weakly_connected_components(G), key=len)` selects. -/
def IsLargestWcc (es : List CEdge) (C : List String) : Prop :=
  (∃ v, IsWccFrom es v C) ∧
  ∀ (w : String) (D : List String), IsWccFrom es w D → D.length ≤ C.length

theorem adjU_symm (es : List CEdge) : Symmetric (adjU es) := by
  intro a b h
  rcases h with h | h
  · exact Or.inr h
  · exact Or.inl h

theorem adjU_mem (es : List CEdge) (a b : String) (h : adjU es a b) :
    a ∈ nodesOf es ∧ b ∈ nodesOf es := by
  rcases h with ⟨e, he, hs, ht⟩ | ⟨e, he, hs, ht⟩
  · constructor
    · exact List.mem_dedup.mpr (List.mem_append.mpr (Or.inl
        (List.mem_map.mpr ⟨e, he, hs⟩)))
    · exact List.mem_dedup.mpr (List.mem_append.mpr (Or.inr
        (List.mem_map.mpr ⟨e, he, ht⟩)))
  · constructor
    · exact List.mem_dedup.mpr (List.mem_append.mpr (Or.inr
        (List.mem_map.mpr ⟨e, he, ht⟩)))
    · exact List.mem_dedup.mpr (List.mem_append.mpr (Or.inl
        (List.mem_map.mpr ⟨e, he, hs⟩)))

theorem reachU_invariant (es : List CEdge) (S : List String)
    (hS : ∀ e ∈ es, (e.source ∈ S → e.target ∈ S) ∧ (e.target ∈ S → e.source ∈ S))
    (u v : String) (hu : u ∈ S) (h : reachU es u v) : v ∈ S := by
  induction h with
  | refl => exact hu
  | @tail b c hab hbc ih =>
    rcases hbc with ⟨e, he, hs, ht⟩ | ⟨e, he, hs, ht⟩
    · exact ht ▸ ((hS e he).1 (hs.symm ▸ ih))
    · exact hs ▸ ((hS e he).2 (ht.symm ▸ ih))

theorem reach_in_induced (es : List CEdge) (v : String) (C : List String)
    (hmem : ∀ u, u ∈ C ↔ (u ∈ nodesOf es ∧ reachU es v u)) :
    ∀ u, reachU es v u →
      Relation.ReflTransGen (adjU (induced_edges es C)) v u := by
  intro u h
  induction h with
  | refl => exact Relation.ReflTransGen.refl
  | @tail b c hab hbc ih =>
    have hbn := adjU_mem es b c hbc
    have hbC : b ∈ C := (hmem b).mpr ⟨hbn.1, hab⟩
    have hcC : c ∈ C := (hmem c).mpr ⟨hbn.2, hab.tail hbc⟩
    have hstep : adjU (induced_edges es C) b c := by
      rcases hbc with ⟨e, he, hs, ht⟩ | ⟨e, he, hs, ht⟩
      · exact Or.inl ⟨e, List.mem_filter.mpr ⟨he, by
          simp only [decide_eq_true_eq]
          exact ⟨hs.symm ▸ hbC, ht.symm ▸ hcC⟩⟩, hs, ht⟩
      · exact Or.inr ⟨e, List.mem_filter.mpr ⟨he, by
          simp only [decide_eq_true_eq]
          exact ⟨hs.symm ▸ hcC, ht.symm ▸ hbC⟩⟩, hs, ht⟩
    exact ih.tail hstep

theorem nodes_induced_subset (es : List CEdge) (C : List String) (u : String)
    (hu : u ∈ nodesOf (induced_edges es C)) : u ∈ C := by
  rcases List.mem_append.mp (List.mem_dedup.mp hu) with h | h
  · obtain ⟨e, he, rfl⟩ := List.mem_map.mp h
    have := (List.mem_filter.mp he).2
    rw [decide_eq_true_eq] at this
    exact this.1
  · obtain ⟨e, he, rfl⟩ := List.mem_map.mp h
    have := (List.mem_filter.mp he).2
    rw [decide_eq_true_eq] at this
    exact this.2

/-- C9.  The Graph Reducer keeps exactly the edges with observation count at
least the threshold; restricting to a largest weakly-connected component `C`
keeps exactly the internal edges of `C`; and the resulting graph is weakly
connected. -/
theorem C9_graph_reducer (es : List CEdge) (minCount : ℕ) (C : List String)
    (hC : IsLargestWcc (filter_by_count es minCount) C) :
    (∀ e, e ∈ filter_by_count es minCount ↔ (e ∈ es ∧ minCount ≤ e.count)) ∧
    (∀ e, e ∈ induced_edges (filter_by_count es minCount) C ↔
      (e ∈ filter_by_count es minCount ∧ e.source ∈ C ∧ e.target ∈ C)) ∧
    IsWeaklyConnected (induced_edges (filter_by_count es minCount) C) := by
  obtain ⟨⟨v, hv, hnd, hmem⟩, hmax⟩ := hC
  refine ⟨?_, ?_, ?_⟩
  · intro e
    rw [filter_by_count, List.mem_filter, decide_eq_true_eq]
  · intro e
    rw [induced_edges, List.mem_filter, decide_eq_true_eq]
  · intro u hu w hw
    have huC : u ∈ C := nodes_induced_subset _ C u hu
    have hwC : w ∈ C := nodes_induced_subset _ C w hw
    have h1 : Relation.ReflTransGen (adjU (induced_edges (filter_by_count es minCount) C)) v u :=
      reach_in_induced _ v C hmem u ((hmem u).mp huC).2
    have h2 : Relation.ReflTransGen (adjU (induced_edges (filter_by_count es minCount) C)) v w :=
      reach_in_induced _ v C hmem w ((hmem w).mp hwC).2
    exact Relation.ReflTransGen.trans
      (Relation.ReflTransGen.symmetric (adjU_symm _) h1) h2

theorem nodup_length_le (D S : List String) (hnd : D.Nodup)
    (hsub : ∀ x ∈ D, x ∈ S) : D.length ≤ S.length := by
  have h1 : D.toFinset.card = D.length := List.toFinset_card_of_nodup hnd
  have h2 : D.toFinset ⊆ S.toFinset :=
    fun x hx => List.mem_toFinset.mpr (hsub x (List.mem_toFinset.mp hx))
  have h3 := Finset.card_le_card h2
  have h4 := S.toFinset_card_le
  omega

/-- The concrete reduced graph of the C9 witness: counts ≥ 2 keep the edges
a→b and c→d (dropping the connecting a→c observed only once), leaving the two
weakly-connected components {a, b} and {c, d}. -/
def witness_edges : List CEdge :=
  [⟨"a", "b", 1, 2⟩, ⟨"c", "d", 1, 2⟩, ⟨"a", "c", 1, 1⟩]

theorem witness_largest_wcc : IsLargestWcc (filter_by_count witness_edges 2) ["a", "b"] := by
  have hclosAB : ∀ e ∈ filter_by_count witness_edges 2,
      (e.source ∈ ["a", "b"] → e.target ∈ ["a", "b"]) ∧
      (e.target ∈ ["a", "b"] → e.source ∈ ["a", "b"]) := by decide
  have hclosCD : ∀ e ∈ filter_by_count witness_edges 2,
      (e.source ∈ ["c", "d"] → e.target ∈ ["c", "d"]) ∧
      (e.target ∈ ["c", "d"] → e.source ∈ ["c", "d"]) := by decide
  have hreach_ab : reachU (filter_by_count witness_edges 2) "a" "b" :=
    Relation.ReflTransGen.single (Or.inl ⟨⟨"a", "b", 1, 2⟩, by decide, rfl, rfl⟩)
  have hreach_cd : reachU (filter_by_count witness_edges 2) "c" "d" :=
    Relation.ReflTransGen.single (Or.inl ⟨⟨"c", "d", 1, 2⟩, by decide, rfl, rfl⟩)
  constructor
  · refine ⟨"a", by decide, by decide, ?_⟩
    intro u
    constructor
    · intro hu
      rcases List.mem_cons.mp hu with rfl | hu
      · exact ⟨by decide, Relation.ReflTransGen.refl⟩
      · rcases List.mem_cons.mp hu with rfl | hu
        · exact ⟨by decide, hreach_ab⟩
        · cases hu
    · rintro ⟨hun, hur⟩
      exact reachU_invariant _ ["a", "b"] hclosAB "a" u (by decide) hur
  · rintro w D ⟨hw, hndD, hmemD⟩
    have hw4 : w ∈ ["a", "c", "b", "d"] := by
      have heq : nodesOf (filter_by_count witness_edges 2) = ["a", "c", "b", "d"] := by
        decide
      rwa [heq] at hw
    have hsub : (∀ x ∈ D, x ∈ ["a", "b"]) ∨ (∀ x ∈ D, x ∈ ["c", "d"]) := by
      rcases List.mem_cons.mp hw4 with rfl | hw4
      · exact Or.inl (fun x hx =>
          reachU_invariant _ ["a", "b"] hclosAB "a" x (by decide) ((hmemD x).mp hx).2)
      · rcases List.mem_cons.mp hw4 with rfl | hw4
        · exact Or.inr (fun x hx =>
            reachU_invariant _ ["c", "d"] hclosCD "c" x (by decide) ((hmemD x).mp hx).2)
        · rcases List.mem_cons.mp hw4 with rfl | hw4
          · exact Or.inl (fun x hx =>
              reachU_invariant _ ["a", "b"] hclosAB "b" x (by decide) ((hmemD x).mp hx).2)
          · rcases List.mem_cons.mp hw4 with rfl | hw4
            · exact Or.inr (fun x hx =>
                reachU_invariant _ ["c", "d"] hclosCD "d" x (by decide) ((hmemD x).mp hx).2)
            · cases hw4
    rcases hsub with hsub | hsub
    · exact nodup_length_le D ["a", "b"] hndD hsub
    · exact nodup_length_le D ["c", "d"] hndD hsub

/-- Witness for C9 on a concrete three-observation edge list whose count
filter (threshold 2) leaves the two components {a, b} and {c, d}, with
`C = [a, b]` a largest component. -/
theorem C9_witness :
    IsLargestWcc (filter_by_count witness_edges 2) ["a", "b"] ∧
    ((∀ e, e ∈ filter_by_count witness_edges 2 ↔ (e ∈ witness_edges ∧ 2 ≤ e.count)) ∧
     (∀ e, e ∈ induced_edges (filter_by_count witness_edges 2) ["a", "b"] ↔
       (e ∈ filter_by_count witness_edges 2 ∧ e.source ∈ ["a", "b"] ∧
         e.target ∈ ["a", "b"])) ∧
     IsWeaklyConnected (induced_edges (filter_by_count witness_edges 2) ["a", "b"])) :=
  ⟨witness_largest_wcc, C9_graph_reducer witness_edges 2 ["a", "b"] witness_largest_wcc⟩

end DeepFundingModel
